import Mathlib

/-!
# A model of `cli_gets` (src/cli_gets.h)

This file gives a shallow embedding of the interactive line editor
`cli_gets` and proves properties of it.

Modelling choices:
* The editing buffer is a total function `Int → Nat` (index to byte value),
  because the C code can, in corner cases, index outside `0 .. blen-1`
  (both above `blen` and below `0`), and we want those writes to be visible.
* The C variables `len`, `off`, `pad` are `int`; they are modelled as `Int`.
  `blen` is a `size_t`, modelled as `Nat`.
* The `do { ... } while (b != 0xD && len < blen)` loop is modelled with a
  fuel parameter; each iteration consumes at least one input byte, so fuel
  equal to the input length is always enough, and the function stays
  executable by `decide` / `rfl`.
* The comparison `len < blen` between `int` and `size_t` is the C usual
  arithmetic conversion: `len` converted to a 64-bit unsigned value,
  modelled by `(len % 2^64).toNat < blen`.
* Terminal-mode changes and output are recorded in an event trace
  (`tcsetattr` raw / original, line renders, the final newline), so that
  ordering claims about restoring the terminal can be stated.
* The trailing drain loop `while (b != 0xD) b = getchar();` only discards
  further input and touches no state visible to the caller; it is not
  modelled beyond that remark.
-/

namespace CliGets

/-- `update f i v` models the buffer write `buf[i] = v`. -/
def update (f : Int → Nat) (i : Int) (v : Nat) : Int → Nat :=
  fun j => if j = i then v else f j

/-- Type of the history callback `cli_history_cb`:
given the direction, the buffer and its capacity, it returns
the (possibly unchanged) new buffer contents. -/
abbrev HistCb := Int → (Int → Nat) → Nat → (Int → Nat)

/-- The local state of `cli_gets`: the buffer and the C variables
`len`, `off` (cursor offset from the end) and `pad`. -/
structure CliState where
  buf : Int → Nat
  len : Int
  off : Int
  pad : Int

/-- `b = getchar()` on the modelled input stream: reading past the end of
the supplied input yields the value 0 (that situation is reported as
starvation by the loop and is not relied upon). -/
def getByte : List Nat → Nat × List Nat
  | [] => (0, [])
  | b :: r => (b, r)

/-- Models the descending shift loop of the insertion path,
`for (i = <i>; i > <i> - k; i--) buf[i] = buf[i-1];`,
run for `k` iterations starting at index `i`. -/
def shiftRightN : (Int → Nat) → Int → Nat → (Int → Nat)
  | f, _, 0 => f
  | f, i, k+1 => shiftRightN (update f i (f (i - 1))) (i - 1) k

/-- Models the ascending shift loop of the deletion paths,
`for (i = <i>; i < <i> + k; i++) buf[i] = buf[i+1];`,
run for `k` iterations starting at index `i`. -/
def shiftLeftN : (Int → Nat) → Int → Nat → (Int → Nat)
  | f, _, 0 => f
  | f, i, k+1 => shiftLeftN (update f i (f (i + 1))) (i + 1) k

/-- Bounded scan for `strlen(buf)`: number of indices before the first
zero byte, scanning from `i`, looking at most `fuel` positions. -/
def cStrlenAux : (Int → Nat) → Nat → Int → Nat
  | _, 0, _ => 0
  | f, fuel+1, i => if f i = 0 then 0 else cStrlenAux f fuel (i + 1) + 1

/-- `strlen(buf)` scanning from index 0, bounded by the buffer capacity
(the history callback contract guarantees a terminator within capacity). -/
def cStrlen (bound : Nat) (f : Int → Nat) : Nat :=
  cStrlenAux f bound 0

/-- Read the C string stored in the buffer starting at index `i`
(at most `fuel` characters): the returned line as a list of bytes. -/
def readCStr : (Int → Nat) → Nat → Int → List Nat
  | _, 0, _ => []
  | f, fuel+1, i => if f i = 0 then [] else f i :: readCStr f fuel (i + 1)

/-- Write the bytes of `cs` into consecutive buffer slots starting at `i`.
Used only to state properties, not part of the code model. -/
def writeSeq : (Int → Nat) → Int → List Nat → (Int → Nat)
  | f, _, [] => f
  | f, i, c :: cs => writeSeq (update f i c) (i + 1) cs

/-- The `default:` branch (with `case 0xD:` falling into it): shift
`off` characters right when `off != 0`, write `b` at `len - off`,
write the terminator at `len + 1`, increment `len`, reset `pad`. -/
def insertChar (b : Nat) (s : CliState) : CliState :=
  let buf1 := if s.off ≠ 0 then shiftRightN s.buf s.len s.off.toNat else s.buf
  let buf2 := update buf1 (s.len - s.off) b
  let buf3 := update buf2 (s.len + 1) 0
  ⟨buf3, s.len + 1, s.off, 0⟩

/-- The `case 0x7F:` (backspace) branch: if `len - off > 0`, shift left by
one starting at `len - off - 1` (the loop runs `max 0 off` times, since it
stops before `len - 1`), blank the last slot, `len--`, `pad++`. -/
def eraseBackward (s : CliState) : CliState :=
  if s.len - s.off > 0 then
    let buf1 := shiftLeftN s.buf (s.len - s.off - 1) s.off.toNat
    let buf2 := update buf1 (s.len - 1) 32
    ⟨buf2, s.len - 1, s.off, s.pad + 1⟩
  else s

/-- The delete-key branch (`b3 == 51`): if `off > 0`, shift left by one
starting at `len - off` (the loop runs `max 0 (off - 1)` times), blank the
last slot, `len--`, `pad++`, `off--`. -/
def deleteForward (s : CliState) : CliState :=
  if s.off > 0 then
    let buf1 := shiftLeftN s.buf (s.len - s.off) (s.off - 1).toNat
    let buf2 := update buf1 (s.len - 1) 32
    ⟨buf2, s.len - 1, s.off - 1, s.pad + 1⟩
  else s

/-- The left-arrow branch (`b3 == 68`): `off++`, clamped down to `len`. -/
def moveLeft (s : CliState) : CliState :=
  let o := s.off + 1
  { s with off := if o > s.len then s.len else o }

/-- The right-arrow branch (`b3 == 67`): `off--`, clamped up to 0. -/
def moveRight (s : CliState) : CliState :=
  let o := s.off - 1
  { s with off := if o < 0 then 0 else o }

/-- The up/down-arrow branches (`b3 == 65` / `b3 == 66`): when a history
callback is present, call it with the direction, the buffer and the
capacity, then `len = strlen(buf)`, `off = 0`, `pad = 0`; otherwise
do nothing. -/
def histEvent (hcb : Option HistCb) (blen : Nat) (dir : Int) (s : CliState) : CliState :=
  match hcb with
  | none => s
  | some cb =>
    let nb := cb dir s.buf blen
    ⟨nb, (cStrlen blen nb : Int), 0, 0⟩

/-- The `case 0x1b:` branch: read two more bytes `b2`, `b3`; when
`b2 == 0x5b`, dispatch on `b3` (left/right/down/up/home/delete/end, the
last three consuming one further dummy byte); anything unrecognized is
ignored.  Returns the new state and the remaining input. -/
def execEsc (hcb : Option HistCb) (blen : Nat) (rest : List Nat) (s : CliState) :
    CliState × List Nat :=
  let p1 := getByte rest
  let p2 := getByte p1.2
  let b2 := p1.1
  let b3 := p2.1
  let r2 := p2.2
  if b2 = 0x5b then
    if b3 = 68 then (moveLeft s, r2)
    else if b3 = 67 then (moveRight s, r2)
    else if b3 = 66 then (histEvent hcb blen 1 s, r2)
    else if b3 = 65 then (histEvent hcb blen (-1) s, r2)
    else if b3 = 49 then ({ s with off := -s.len }, (getByte r2).2)
    else if b3 = 51 then (deleteForward s, (getByte r2).2)
    else if b3 = 52 then ({ s with off := 0 }, (getByte r2).2)
    else (s, r2)
  else (s, r2)

/-- One execution of the `switch (b)` body for a byte that is not one of
the two terminating bytes 0x03/0x1A: escape sequence, backspace, carriage
return (which zeroes `off` and falls through to insertion), or literal
insertion. -/
def execByte (hcb : Option HistCb) (blen : Nat) (b : Nat) (rest : List Nat) (s : CliState) :
    CliState × List Nat :=
  if b = 0x1b then execEsc hcb blen rest s
  else if b = 0x7f then (eraseBackward s, rest)
  else if b = 0xd then (insertChar 0xd { s with off := 0 }, rest)
  else (insertChar b s, rest)

/-- Observable terminal actions, in program order: switching to raw mode,
restoring the original mode, re-rendering the prompt line, moving the
visual cursor left, printing a bare newline, printing the final line with
its newline. -/
inductive TraceEv
  | setRaw
  | setOrig
  | render
  | cursorMove (n : Int)
  | newline
  | finalLine
deriving DecidableEq, Repr

/-- Output performed at the end of each loop iteration: re-render the
line, then move the visual cursor left by `off + pad` when positive. -/
def iterTrace (s : CliState) : List TraceEv :=
  .render :: (if s.off + s.pad > 0 then [.cursorMove (s.off + s.pad)] else [])

/-- How the read loop ended: carriage return, `len < blen` failing,
one of the process-terminating bytes, or (model artifact) running out
of supplied input. -/
inductive ExitKind
  | gotCR
  | gotFull
  | cancelled (status : Nat)
  | starved
deriving DecidableEq, Repr

/-- Result of running the read loop. -/
structure LoopOut where
  state : CliState
  ekind : ExitKind
  rest : List Nat
  trace : List TraceEv

/-- The loop condition `len < blen` with `len : int` and `blen : size_t`:
`len` is converted to the unsigned 64-bit type, so a negative `len`
compares as a huge value. -/
def sizeLt (len : Int) (blen : Nat) : Bool :=
  decide ((len % (2 : Int) ^ 64).toNat < blen)

/-- The `do { ... } while (b != 0xD && len < blen)` loop.  Each iteration
reads `b`; 0x03/0x1A restore the terminal, print a newline and terminate
the process (status 0 for 0x03, 1 for 0x1A); any other byte goes through
`execByte`, the line is re-rendered, and the loop continues while
`b != 0xD` and `len < blen`. -/
def cliLoop (hcb : Option HistCb) (blen : Nat) :
    Nat → List Nat → CliState → List TraceEv → LoopOut
  | _, [], s, tr => ⟨s, .starved, [], tr⟩
  | 0, input, s, tr => ⟨s, .starved, input, tr⟩
  | fuel+1, b :: rest, s, tr =>
    if b = 0x3 ∨ b = 0x1a then
      ⟨s, .cancelled (if b = 0x3 then 0 else 1), rest, tr ++ [.setOrig, .newline]⟩
    else
      let p := execByte hcb blen b rest s
      let tr2 := tr ++ iterTrace p.1
      if b ≠ 0xd ∧ sizeLt p.1.len blen = true then cliLoop hcb blen fuel p.2 p.1 tr2
      else ⟨p.1, if b = 0xd then .gotCR else .gotFull, p.2, tr2⟩

/-- What `cli_gets` hands back: either a finished line in the caller's
buffer (together with the final `len`), or process termination with an
exit status (no line is returned then), or (model artifact) input
starvation. -/
inductive CliResult
  | line (buf : Int → Nat) (len : Int)
  | exited (status : Nat)
  | starved

/-- Whether a line was returned to the caller. -/
def CliResult.isLine : CliResult → Bool
  | .line _ _ => true
  | _ => false

/-- The returned buffer (all-zero when no line was returned). -/
def CliResult.lineBuf : CliResult → (Int → Nat)
  | .line b _ => b
  | _ => fun _ => 0

/-- The returned logical length (0 when no line was returned). -/
def CliResult.lineLen : CliResult → Int
  | .line _ l => l
  | _ => 0

/-- Entry state: `buf[0] = 0`, `len = off = pad = 0`. -/
def initState (init : Int → Nat) : CliState :=
  ⟨update init 0 0, 0, 0, 0⟩

/-- Entry output: the prompt is printed, then the stream is put in raw
mode. -/
def initTrace : List TraceEv :=
  [.render, .setRaw]

/-- The finalization performed when the loop ended on 0xD:
`len--; buf[len] = 0;` (strips the terminator byte that the fall-through
insertion appended). -/
def finalizeCR (s : CliState) : CliState :=
  ⟨update s.buf (s.len - 1) 0, s.len - 1, s.off, s.pad⟩

/-- The whole of `cli_gets`: initialize, run the loop, and either
terminate the process (0x03/0x1A), or restore the terminal and return the
line (stripping the appended 0xD byte when the loop ended on one). -/
def cliGets (hcb : Option HistCb) (blen : Nat) (input : List Nat) (init : Int → Nat) :
    CliResult × List TraceEv :=
  let out := cliLoop hcb blen input.length input (initState init) initTrace
  match out.ekind with
  | .cancelled st => (.exited st, out.trace)
  | .gotCR =>
    let s := finalizeCR out.state
    (.line s.buf s.len, out.trace ++ [.setOrig, .finalLine])
  | .gotFull => (.line out.state.buf out.state.len, out.trace ++ [.setOrig, .finalLine])
  | .starved => (.starved, out.trace)

/-- A literal input byte: a byte value that is none of cancel, suspend,
escape, backspace, carriage return. -/
def LitByte (c : Nat) : Prop :=
  c < 256 ∧ c ≠ 0x3 ∧ c ≠ 0x1a ∧ c ≠ 0x1b ∧ c ≠ 0x7f ∧ c ≠ 0xd

instance (c : Nat) : Decidable (LitByte c) := by
  unfold LitByte; infer_instance

/-! ## Helper lemmas -/

theorem update_at (f : Int → Nat) (i : Int) (v : Nat) : update f i v i = v := by
  simp [update]

theorem update_ne (f : Int → Nat) (i j : Int) (v : Nat) (h : j ≠ i) :
    update f i v j = f j := by
  simp [update, h]

theorem update_shadow (f : Int → Nat) (i : Int) (v w : Nat) :
    update (update f i v) i w = update f i w := by
  funext j
  by_cases h : j = i <;> simp [update, h]

theorem shiftRightN_apply : ∀ (k : Nat) (f : Int → Nat) (i j : Int),
    shiftRightN f i k j = if i - k < j ∧ j ≤ i then f (j - 1) else f j := by
  intro k
  induction k with
  | zero =>
    intro f i j
    rw [shiftRightN, if_neg (by push_cast; omega)]
  | succ k ih =>
    intro f i j
    rw [shiftRightN, ih]
    simp only [update]
    split_ifs with h1 h2 h3 h4 h5 <;>
      first
        | rfl
        | (exfalso; push_cast at *; omega)
        | (congr 1; push_cast at *; omega)

theorem shiftLeftN_apply : ∀ (k : Nat) (f : Int → Nat) (i j : Int),
    shiftLeftN f i k j = if i ≤ j ∧ j < i + k then f (j + 1) else f j := by
  intro k
  induction k with
  | zero =>
    intro f i j
    rw [shiftLeftN, if_neg (by push_cast; omega)]
  | succ k ih =>
    intro f i j
    rw [shiftLeftN, ih]
    simp only [update]
    split_ifs with h1 h2 h3 h4 h5 <;>
      first
        | rfl
        | (exfalso; push_cast at *; omega)
        | (congr 1; push_cast at *; omega)

theorem writeSeq_shadow (L : List Nat) (hL : L ≠ []) (f : Int → Nat) (i : Int) (v : Nat) :
    writeSeq (update f i v) i L = writeSeq f i L := by
  cases L with
  | nil => exact absurd rfl hL
  | cons d L => simp [writeSeq, update_shadow]

theorem writeSeq_apply : ∀ (L : List Nat) (f : Int → Nat) (i j : Int),
    writeSeq f i L j = if i ≤ j ∧ j < i + L.length then L.getD (j - i).toNat 0 else f j := by
  intro L
  induction L with
  | nil =>
    intro f i j
    rw [writeSeq, if_neg (by rw [List.length_nil]; push_cast; omega)]
  | cons c cs ih =>
    intro f i j
    rw [writeSeq, ih]
    by_cases hA : (i + 1 : Int) ≤ j ∧ j < i + 1 + cs.length
    · rw [if_pos hA, if_pos (by rw [List.length_cons]; push_cast; omega)]
      rw [show (j - i).toNat = (j - (i + 1)).toNat + 1 from by omega]
      rfl
    · rw [if_neg hA]
      by_cases hj : j = i
      · rw [hj, update_at, if_pos (by rw [List.length_cons]; push_cast; omega)]
        rw [show ((i : Int) - i).toNat = 0 from by omega]
        rfl
      · rw [update_ne _ _ _ _ hj,
          if_neg (by rw [List.length_cons]; push_cast at hA ⊢; omega)]

theorem cStrlenAux_spec : ∀ (bound : Nat) (f : Int → Nat) (i : Int),
    (∃ k : Nat, k < bound ∧ f (i + k) = 0) →
    f (i + (cStrlenAux f bound i : Int)) = 0 ∧
      ∀ j : Nat, j < cStrlenAux f bound i → f (i + j) ≠ 0 := by
  intro bound
  induction bound with
  | zero =>
    intro f i h
    obtain ⟨k, hk, -⟩ := h
    exact absurd hk (by omega)
  | succ bound ih =>
    intro f i h
    by_cases h0 : f i = 0
    · rw [cStrlenAux, if_pos h0]
      refine ⟨by simpa using h0, ?_⟩
      intro j hj
      exact absurd hj (by omega)
    · rw [cStrlenAux, if_neg h0]
      obtain ⟨k, hk, hfk⟩ := h
      have hkpos : k ≠ 0 := by
        intro h'
        subst h'
        exact h0 (by simpa using hfk)
      have hprev : ∃ k' : Nat, k' < bound ∧ f (i + 1 + k') = 0 := by
        refine ⟨k - 1, by omega, ?_⟩
        rw [show (i + 1 + (k - 1 : Nat) : Int) = i + k from by omega]
        exact hfk
      obtain ⟨hz, hnz⟩ := ih f (i + 1) hprev
      constructor
      · rw [show (i + ((cStrlenAux f bound (i + 1) + 1 : Nat) : Int))
              = i + 1 + (cStrlenAux f bound (i + 1) : Nat) from by push_cast; omega]
        exact hz
      · intro j hj
        cases j with
        | zero => simpa using h0
        | succ j =>
          rw [show (i + ((j + 1 : Nat) : Int)) = i + 1 + (j : Nat) from by push_cast; omega]
          exact hnz j (by omega)

theorem sizeLt_true_of (len : Int) (blen : Nat) (h0 : 0 ≤ len) (h1 : len < (blen : Int))
    (h2 : (blen : Int) ≤ 2 ^ 64) : sizeLt len blen = true := by
  unfold sizeLt
  rw [decide_eq_true_iff, Int.emod_eq_of_lt h0 (lt_of_lt_of_le h1 h2)]
  omega

/-- One unfolding of the loop on a non-empty input with positive fuel. -/
theorem cliLoop_cons_eq (hcb : Option HistCb) (blen fuel : Nat) (b : Nat) (rest : List Nat)
    (s : CliState) (tr : List TraceEv) :
    cliLoop hcb blen (fuel + 1) (b :: rest) s tr =
      if b = 0x3 ∨ b = 0x1a then
        ⟨s, .cancelled (if b = 0x3 then 0 else 1), rest, tr ++ [.setOrig, .newline]⟩
      else
        if b ≠ 0xd ∧ sizeLt (execByte hcb blen b rest s).1.len blen = true then
          cliLoop hcb blen fuel (execByte hcb blen b rest s).2 (execByte hcb blen b rest s).1
            (tr ++ iterTrace (execByte hcb blen b rest s).1)
        else
          ⟨(execByte hcb blen b rest s).1, if b = 0xd then .gotCR else .gotFull,
            (execByte hcb blen b rest s).2,
            tr ++ iterTrace (execByte hcb blen b rest s).1⟩ := rfl

/-- `execByte` on a literal byte is insertion. -/
theorem execByte_lit (hcb : Option HistCb) (blen : Nat) (b : Nat) (rest : List Nat)
    (s : CliState) (h27 : b ≠ 0x1b) (h127 : b ≠ 0x7f) (h13 : b ≠ 0xd) :
    execByte hcb blen b rest s = (insertChar b s, rest) := by
  simp [execByte, h27, h127, h13]

/-- `execByte` on a carriage return zeroes the offset and inserts 0xD. -/
theorem execByte_cr (hcb : Option HistCb) (blen : Nat) (rest : List Nat) (s : CliState) :
    execByte hcb blen 0xd rest s = (insertChar 0xd { s with off := 0 }, rest) := by
  simp [execByte]

/-- Insertion at cursor offset 0 appends at `len` and re-terminates. -/
theorem insertChar_off0 (b : Nat) (s : CliState) (h : s.off = 0) :
    insertChar b s =
      ⟨update (update s.buf s.len b) (s.len + 1) 0, s.len + 1, 0, 0⟩ := by
  simp [insertChar, h]

/-- A literal iteration of the loop, at cursor offset 0 with room left. -/
theorem cliLoop_lit_step (hcb : Option HistCb) (blen fuel : Nat) (b : Nat)
    (rest : List Nat) (s : CliState) (tr : List TraceEv)
    (hb : LitByte b) (hoff : s.off = 0) (hsz : sizeLt (s.len + 1) blen = true) :
    cliLoop hcb blen (fuel + 1) (b :: rest) s tr =
      cliLoop hcb blen fuel rest
        ⟨update (update s.buf s.len b) (s.len + 1) 0, s.len + 1, 0, 0⟩
        (tr ++ iterTrace ⟨update (update s.buf s.len b) (s.len + 1) 0, s.len + 1, 0, 0⟩) := by
  obtain ⟨-, h3, h26, h27, h127, h13⟩ := hb
  rw [cliLoop_cons_eq, if_neg (by tauto), execByte_lit hcb blen b rest s h27 h127 h13]
  simp only [insertChar_off0 b s hoff]
  rw [if_pos ⟨h13, hsz⟩]

/-- A carriage-return iteration: append 0xD at the end (the offset was
just zeroed) and leave the loop through the `gotCR` exit. -/
theorem cliLoop_cr_step (hcb : Option HistCb) (blen fuel : Nat)
    (rest : List Nat) (s : CliState) (tr : List TraceEv) :
    cliLoop hcb blen (fuel + 1) (0xd :: rest) s tr =
      ⟨⟨update (update s.buf s.len 0xd) (s.len + 1) 0, s.len + 1, 0, 0⟩, .gotCR, rest,
        tr ++ iterTrace ⟨update (update s.buf s.len 0xd) (s.len + 1) 0, s.len + 1, 0, 0⟩⟩ := by
  have hins : insertChar 0xd { s with off := 0 } =
      ⟨update (update s.buf s.len 0xd) (s.len + 1) 0, s.len + 1, 0, 0⟩ :=
    insertChar_off0 0xd { s with off := 0 } rfl
  rw [cliLoop_cons_eq, if_neg (by decide), execByte_cr]
  simp only [hins]
  rw [if_neg (by simp)]
  simp

/-- Running a list of literal bytes followed by 0xD from a state with the
cursor at the end: every byte is appended in order, the final 0xD is
appended too, and the loop exits through `gotCR` with all input
consumed. -/
theorem litRun (hcb : Option HistCb) (blen : Nat) (hblen : (blen : Int) ≤ 2 ^ 64) :
    ∀ (cs : List Nat) (fuel : Nat) (s : CliState) (tr : List TraceEv),
      (∀ c ∈ cs, LitByte c) → s.off = 0 → 0 ≤ s.len →
      s.len + cs.length < (blen : Int) → cs.length + 1 ≤ fuel →
      ∃ tr2, cliLoop hcb blen fuel (cs ++ [0xd]) s tr =
        ⟨⟨writeSeq s.buf s.len (cs ++ [0xd, 0]), s.len + cs.length + 1, 0, 0⟩,
          .gotCR, [], tr2⟩ := by
  intro cs
  induction cs with
  | nil =>
    intro fuel s tr _ hoff hlen0 hlen hfuel
    obtain ⟨fl, rfl⟩ : ∃ fl, fuel = fl + 1 := ⟨fuel - 1, by omega⟩
    refine ⟨tr ++ iterTrace ⟨update (update s.buf s.len 0xd) (s.len + 1) 0,
      s.len + 1, 0, 0⟩, ?_⟩
    rw [List.nil_append, cliLoop_cr_step]
    simp only [List.nil_append, List.length_nil, Nat.cast_zero, add_zero]
    rfl
  | cons c cs ih =>
    intro fuel s tr hlit hoff hlen0 hlen hfuel
    obtain ⟨fl, rfl⟩ : ∃ fl, fuel = fl + 1 := ⟨fuel - 1, by omega⟩
    have hlen' : s.len + (cs.length : Int) + 1 < (blen : Int) := by
      rw [List.length_cons] at hlen
      push_cast at hlen
      omega
    have hsz : sizeLt (s.len + 1) blen = true :=
      sizeLt_true_of _ _ (by omega) (by omega) hblen
    obtain ⟨tr3, hrec⟩ :=
      ih fl ⟨update (update s.buf s.len c) (s.len + 1) 0, s.len + 1, 0, 0⟩
        (tr ++ iterTrace ⟨update (update s.buf s.len c) (s.len + 1) 0, s.len + 1, 0, 0⟩)
        (fun d hd => hlit d (List.mem_cons_of_mem c hd)) rfl
        (by show (0 : Int) ≤ s.len + 1; omega)
        (by show s.len + 1 + (cs.length : Int) < (blen : Int); omega)
        (by rw [List.length_cons] at hfuel; omega)
    refine ⟨tr3, ?_⟩
    rw [List.cons_append,
      cliLoop_lit_step hcb blen fl c _ s tr (hlit c (List.mem_cons_self c cs)) hoff hsz,
      hrec]
    congr 1
    · congr 1
      · rw [List.cons_append]
        rw [show writeSeq s.buf s.len (c :: (cs ++ [0xd, 0]))
              = writeSeq (update s.buf s.len c) (s.len + 1) (cs ++ [0xd, 0]) from rfl]
        rw [writeSeq_shadow (cs ++ [0xd, 0]) (by simp)]
      · rw [List.length_cons]
        push_cast
        omega

/-- C4: for every sequence of literal bytes of total count `n` with
`n < blen - 1` followed by the terminator 0xD, the routine returns a line:
the buffer holds exactly those characters in order at indices `0..n-1`,
index `n` holds the terminating 0, and the logical length is `n`. -/
theorem c4_literal_concat (hcb : Option HistCb) (blen : Nat) (init : Int → Nat)
    (cs : List Nat) (hlit : ∀ c ∈ cs, LitByte c)
    (hlen : cs.length + 1 < blen) (hblen : (blen : Int) ≤ 2 ^ 64) :
    ((cliGets hcb blen (cs ++ [0xd]) init).1.isLine = true) ∧
    ((cliGets hcb blen (cs ++ [0xd]) init).1.lineLen = (cs.length : Int)) ∧
    (∀ i : Nat, i < cs.length →
      (cliGets hcb blen (cs ++ [0xd]) init).1.lineBuf (i : Int) = cs.getD i 0) ∧
    ((cliGets hcb blen (cs ++ [0xd]) init).1.lineBuf (cs.length : Int) = 0) := by
  obtain ⟨tr2, hrun⟩ :=
    litRun hcb blen hblen cs (cs ++ [0xd]).length (initState init) initTrace hlit rfl
      le_rfl (by show (0 : Int) + (cs.length : Int) < (blen : Int); omega)
      (by rw [List.length_append, List.length_cons, List.length_nil])
  have hres : cliGets hcb blen (cs ++ [0xd]) init =
      (.line
        (update (writeSeq (initState init).buf (initState init).len (cs ++ [0xd, 0]))
          ((initState init).len + cs.length + 1 - 1) 0)
        ((initState init).len + cs.length + 1 - 1),
        tr2 ++ [.setOrig, .finalLine]) := by
    simp only [cliGets, hrun, finalizeCR]
  have hlen1 : ((initState init).len + (cs.length : Int) + 1 - 1) = (cs.length : Int) := by
    simp [initState]
  rw [hres, hlen1]
  refine ⟨rfl, rfl, ?_, ?_⟩
  · intro i hi
    show update (writeSeq (initState init).buf (initState init).len (cs ++ [0xd, 0]))
        (cs.length : Int) 0 (i : Int) = cs.getD i 0
    rw [update_ne _ _ _ _ (by omega), writeSeq_apply]
    have hini : (initState init).len = 0 := rfl
    rw [hini, if_pos (by rw [List.length_append, List.length_cons,
      List.length_cons, List.length_nil]; push_cast; omega)]
    rw [show ((i : Int) - 0).toNat = i from by omega]
    exact List.getD_append cs [0xd, 0] 0 i hi
  · show update (writeSeq (initState init).buf (initState init).len (cs ++ [0xd, 0]))
        (cs.length : Int) 0 (cs.length : Int) = 0
    rw [update_at]

/-- Witness for C4 at the concrete input `A`, `B`, CR with capacity 8. -/
theorem c4_literal_concat_witness :
    ((cliGets none 8 ([65, 66] ++ [0xd]) (fun _ => 0)).1.isLine = true) ∧
    ((cliGets none 8 ([65, 66] ++ [0xd]) (fun _ => 0)).1.lineLen = 2) ∧
    ((cliGets none 8 ([65, 66] ++ [0xd]) (fun _ => 0)).1.lineBuf 0 = 65) ∧
    ((cliGets none 8 ([65, 66] ++ [0xd]) (fun _ => 0)).1.lineBuf 1 = 66) ∧
    ((cliGets none 8 ([65, 66] ++ [0xd]) (fun _ => 0)).1.lineBuf 2 = 0) := by
  have h := c4_literal_concat none 8 (fun _ => 0) [65, 66] (by decide) (by decide) (by decide)
  exact ⟨h.1, h.2.1, h.2.2.1 0 (by decide), h.2.2.1 1 (by decide), h.2.2.2⟩

/-! ## The claims -/

/-- C8: the history events 0x1B 0x5B 0x41 (up) and 0x1B 0x5B 0x42 (down)
leave the state unchanged when no callback is configured; with a callback
`cb`, the new buffer is `cb dir buf blen` with direction -1 for up and 1
for down, `off` and `pad` are reset to 0, and the new length is the
distance to the first terminator of the new buffer (shown under the
callback contract that a terminator exists within the capacity). -/
theorem c8_history_callback (blen : Nat) (s : CliState) (rest : List Nat) :
    (execByte none blen 0x1b (0x5b :: 65 :: rest) s = (s, rest)) ∧
    (execByte none blen 0x1b (0x5b :: 66 :: rest) s = (s, rest)) ∧
    (∀ cb : HistCb,
      ((execByte (some cb) blen 0x1b (0x5b :: 65 :: rest) s).2 = rest) ∧
      ((execByte (some cb) blen 0x1b (0x5b :: 65 :: rest) s).1.buf
          = cb (-1) s.buf blen) ∧
      ((execByte (some cb) blen 0x1b (0x5b :: 65 :: rest) s).1.off = 0) ∧
      ((execByte (some cb) blen 0x1b (0x5b :: 65 :: rest) s).1.pad = 0) ∧
      ((execByte (some cb) blen 0x1b (0x5b :: 65 :: rest) s).1.len
          = (cStrlen blen (cb (-1) s.buf blen) : Int)) ∧
      ((∃ k : Nat, k < blen ∧ cb (-1) s.buf blen (k : Int) = 0) →
        cb (-1) s.buf blen ((cStrlen blen (cb (-1) s.buf blen) : Nat) : Int) = 0 ∧
        ∀ j : Nat, j < cStrlen blen (cb (-1) s.buf blen) →
          cb (-1) s.buf blen (j : Int) ≠ 0)) ∧
    (∀ cb : HistCb,
      ((execByte (some cb) blen 0x1b (0x5b :: 66 :: rest) s).2 = rest) ∧
      ((execByte (some cb) blen 0x1b (0x5b :: 66 :: rest) s).1.buf
          = cb 1 s.buf blen) ∧
      ((execByte (some cb) blen 0x1b (0x5b :: 66 :: rest) s).1.off = 0) ∧
      ((execByte (some cb) blen 0x1b (0x5b :: 66 :: rest) s).1.pad = 0) ∧
      ((execByte (some cb) blen 0x1b (0x5b :: 66 :: rest) s).1.len
          = (cStrlen blen (cb 1 s.buf blen) : Int)) ∧
      ((∃ k : Nat, k < blen ∧ cb 1 s.buf blen (k : Int) = 0) →
        cb 1 s.buf blen ((cStrlen blen (cb 1 s.buf blen) : Nat) : Int) = 0 ∧
        ∀ j : Nat, j < cStrlen blen (cb 1 s.buf blen) →
          cb 1 s.buf blen (j : Int) ≠ 0)) := by
  have hterm : ∀ (f : Int → Nat),
      (∃ k : Nat, k < blen ∧ f (k : Int) = 0) →
      f ((cStrlen blen f : Nat) : Int) = 0 ∧
        ∀ j : Nat, j < cStrlen blen f → f (j : Int) ≠ 0 := by
    intro f hz
    obtain ⟨k, hk, hfk⟩ := hz
    have h := cStrlenAux_spec blen f 0 ⟨k, hk, by simpa using hfk⟩
    refine ⟨by simpa using h.1, ?_⟩
    intro j hj
    have := h.2 j hj
    simpa using this
  refine ⟨rfl, rfl, ?_, ?_⟩
  · intro cb
    exact ⟨rfl, rfl, rfl, rfl, rfl, hterm _⟩
  · intro cb
    exact ⟨rfl, rfl, rfl, rfl, rfl, hterm _⟩

/-- Witness for C8 with capacity 8, a callback writing the two-byte
string `P`, `P` (terminated at index 2), at the state `A` with
`len = 1`, `off = 1`, `pad = 3`. -/
theorem c8_history_callback_witness :
    ((execByte (some (fun _ _ _ => fun j => if 0 ≤ j ∧ j < 2 then 80 else 0))
        8 0x1b [0x5b, 65] ⟨fun j => if j = 0 then 65 else 0, 1, 1, 3⟩).2
      = ([] : List Nat)) ∧
    ((execByte (some (fun _ _ _ => fun j => if 0 ≤ j ∧ j < 2 then 80 else 0))
        8 0x1b [0x5b, 65] ⟨fun j => if j = 0 then 65 else 0, 1, 1, 3⟩).1.off = 0) ∧
    ((execByte (some (fun _ _ _ => fun j => if 0 ≤ j ∧ j < 2 then 80 else 0))
        8 0x1b [0x5b, 65] ⟨fun j => if j = 0 then 65 else 0, 1, 1, 3⟩).1.pad = 0) ∧
    ((execByte (some (fun _ _ _ => fun j => if 0 ≤ j ∧ j < 2 then 80 else 0))
        8 0x1b [0x5b, 65] ⟨fun j => if j = 0 then 65 else 0, 1, 1, 3⟩).1.len = 2) ∧
    ((fun j : Int => if 0 ≤ j ∧ j < 2 then 80 else 0) (2 : Int) = 0) ∧
    (∀ j : Nat, j < cStrlen 8 (fun j : Int => if 0 ≤ j ∧ j < 2 then 80 else 0) →
      (fun j : Int => if 0 ≤ j ∧ j < 2 then 80 else 0) (j : Int) ≠ 0) := by
  have h := (c8_history_callback 8 ⟨fun j => if j = 0 then 65 else 0, 1, 1, 3⟩ []).2.2.1
    (fun _ _ _ => fun j => if 0 ≤ j ∧ j < 2 then 80 else 0)
  have hc := h.2.2.2.2.2 ⟨2, by decide, by decide⟩
  exact ⟨h.1, h.2.2.1, h.2.2.2.1, h.2.2.2.2.1, by decide, hc.2⟩

/-- C9: reading the cancel byte 0x03 or the suspend byte 0x1A makes the
loop restore the terminal's original attributes, print a newline, and
terminate the process with status 0 (cancel) or 1 (suspend); a cancelled
loop never returns a line to the caller. -/
theorem c9_cancel_suspend :
    (∀ (hcb : Option HistCb) (blen fuel : Nat) (s : CliState) (rest : List Nat)
        (tr : List TraceEv),
      cliLoop hcb blen (fuel + 1) (0x3 :: rest) s tr =
        ⟨s, .cancelled 0, rest, tr ++ [.setOrig, .newline]⟩) ∧
    (∀ (hcb : Option HistCb) (blen fuel : Nat) (s : CliState) (rest : List Nat)
        (tr : List TraceEv),
      cliLoop hcb blen (fuel + 1) (0x1a :: rest) s tr =
        ⟨s, .cancelled 1, rest, tr ++ [.setOrig, .newline]⟩) ∧
    (∀ (hcb : Option HistCb) (blen : Nat) (input : List Nat) (init : Int → Nat)
        (st : Nat),
      (cliLoop hcb blen input.length input (initState init) initTrace).ekind
          = .cancelled st →
      (cliGets hcb blen input init).1 = .exited st) := by
  refine ⟨?_, ?_, ?_⟩
  · intro hcb blen fuel s rest tr
    rw [cliLoop_cons_eq, if_pos (Or.inl rfl)]
    norm_num
  · intro hcb blen fuel s rest tr
    rw [cliLoop_cons_eq, if_pos (Or.inr rfl)]
    norm_num
  · intro hcb blen input init st h
    simp only [cliGets, h]

/-- Witness for C9: the cancel byte as the only input terminates with
status 0 and no line. -/
theorem c9_cancel_suspend_witness :
    (cliGets none 4 [0x3] (fun _ => 0)).1 = .exited 0 :=
  c9_cancel_suspend.2.2 none 4 [0x3] (fun _ => 0) 0 (by decide)

/-- C10: a carriage-return iteration zeroes the cursor offset, appends
the 0xD byte at the end of the buffer like a literal insertion
(regardless of the cursor offset beforehand), and exits the loop; the
finalize step then removes exactly that byte, so the returned line is the
whole buffer content with no character lost, of unchanged length.  The
last conjunct ties the `gotCR` loop exit to the returned line. -/
theorem c10_cr_appends_then_strips :
    (∀ (hcb : Option HistCb) (blen fuel : Nat) (s : CliState) (rest : List Nat)
        (tr : List TraceEv),
      ((cliLoop hcb blen (fuel + 1) (0xd :: rest) s tr).ekind = .gotCR) ∧
      ((cliLoop hcb blen (fuel + 1) (0xd :: rest) s tr).state.off = 0) ∧
      ((cliLoop hcb blen (fuel + 1) (0xd :: rest) s tr).state.len = s.len + 1) ∧
      ((cliLoop hcb blen (fuel + 1) (0xd :: rest) s tr).state.buf s.len = 0xd) ∧
      (∀ j : Int, j < s.len →
        (cliLoop hcb blen (fuel + 1) (0xd :: rest) s tr).state.buf j = s.buf j) ∧
      ((finalizeCR (cliLoop hcb blen (fuel + 1) (0xd :: rest) s tr).state).len
          = s.len) ∧
      ((finalizeCR (cliLoop hcb blen (fuel + 1) (0xd :: rest) s tr).state).buf s.len
          = 0) ∧
      (∀ j : Int, j < s.len →
        (finalizeCR (cliLoop hcb blen (fuel + 1) (0xd :: rest) s tr).state).buf j
          = s.buf j)) ∧
    (∀ (hcb : Option HistCb) (blen : Nat) (input : List Nat) (init : Int → Nat),
      (cliLoop hcb blen input.length input (initState init) initTrace).ekind = .gotCR →
      (cliGets hcb blen input init).1 =
        .line
          (finalizeCR (cliLoop hcb blen input.length input (initState init)
            initTrace).state).buf
          (finalizeCR (cliLoop hcb blen input.length input (initState init)
            initTrace).state).len) := by
  constructor
  · intro hcb blen fuel s rest tr
    rw [cliLoop_cr_step]
    have hb1 : update (update s.buf s.len 0xd) (s.len + 1) 0 s.len = 0xd := by
      rw [update_ne _ _ _ _ (by omega), update_at]
    have hb2 : ∀ j : Int, j < s.len →
        update (update s.buf s.len 0xd) (s.len + 1) 0 j = s.buf j := by
      intro j hj
      rw [update_ne _ _ _ _ (by omega), update_ne _ _ _ _ (by omega)]
    refine ⟨rfl, rfl, rfl, hb1, hb2, ?_, ?_, ?_⟩
    · show s.len + 1 - 1 = s.len
      omega
    · show update (update (update s.buf s.len 0xd) (s.len + 1) 0)
        (s.len + 1 - 1) 0 s.len = 0
      rw [show s.len + 1 - 1 = s.len from by omega, update_at]
    · intro j hj
      show update (update (update s.buf s.len 0xd) (s.len + 1) 0)
        (s.len + 1 - 1) 0 j = s.buf j
      rw [update_ne _ _ _ _ (by omega), update_ne _ _ _ _ (by omega),
        update_ne _ _ _ _ (by omega)]
  · intro hcb blen input init h
    simp only [cliGets, h]

/-- Witness for C10: a CR arriving with cursor offset 1 in the one-char
buffer `A` still returns the full line `A`. -/
theorem c10_cr_appends_then_strips_witness :
    ((cliLoop none 8 1 [0xd] ⟨fun j => if j = 0 then 65 else 0, 1, 1, 0⟩ []).ekind
        = .gotCR) ∧
    ((cliLoop none 8 1 [0xd] ⟨fun j => if j = 0 then 65 else 0, 1, 1, 0⟩ []).state.off
        = 0) ∧
    ((cliLoop none 8 1 [0xd] ⟨fun j => if j = 0 then 65 else 0, 1, 1, 0⟩ []).state.len
        = 2) ∧
    ((cliLoop none 8 1 [0xd] ⟨fun j => if j = 0 then 65 else 0, 1, 1, 0⟩ []).state.buf 1
        = 0xd) ∧
    ((cliLoop none 8 1 [0xd] ⟨fun j => if j = 0 then 65 else 0, 1, 1, 0⟩ []).state.buf 0
        = 65) ∧
    ((finalizeCR (cliLoop none 8 1 [0xd]
        ⟨fun j => if j = 0 then 65 else 0, 1, 1, 0⟩ []).state).len = 1) ∧
    ((finalizeCR (cliLoop none 8 1 [0xd]
        ⟨fun j => if j = 0 then 65 else 0, 1, 1, 0⟩ []).state).buf 1 = 0) ∧
    ((finalizeCR (cliLoop none 8 1 [0xd]
        ⟨fun j => if j = 0 then 65 else 0, 1, 1, 0⟩ []).state).buf 0 = 65) ∧
    ((cliGets none 8 [0xd] (fun _ => 0)).1 =
      .line
        (finalizeCR (cliLoop none 8 [0xd].length [0xd] (initState (fun _ => 0))
          initTrace).state).buf
        (finalizeCR (cliLoop none 8 [0xd].length [0xd] (initState (fun _ => 0))
          initTrace).state).len) := by
  have h := c10_cr_appends_then_strips.1 none 8 0
    ⟨fun j => if j = 0 then 65 else 0, 1, 1, 0⟩ [] []
  have hg := c10_cr_appends_then_strips.2 none 8 [0xd] (fun _ => 0) (by decide)
  refine ⟨h.1, h.2.1, ?_, h.2.2.2.1, ?_, ?_, h.2.2.2.2.2.2.1, ?_, hg⟩
  · have := h.2.2.1
    norm_num at this
    exact this
  · have := h.2.2.2.2.1 0 (by decide)
    norm_num at this
    exact this
  · have := h.2.2.2.2.2.1
    norm_num at this
    exact this
  · have := h.2.2.2.2.2.2.2 0 (by decide)
    norm_num at this
    exact this

/-- C1: the claim says the home-key event (0x1B 0x5B 0x31 0x7E) sets the
cursor offset to `length`.  The code instead performs `off = -len`: with the
single character `A` in the buffer (`len = 1`), the home event leaves
`off = -1`, not `1`.  This theorem evaluates the code at that failing
input. -/
theorem c1_home_sets_negative_offset :
    (execByte none 8 0x1b [0x5b, 0x31, 0x7e]
        (execByte none 8 65 [] (initState (fun _ => 0))).1).1.off = -1 ∧
    (execByte none 8 0x1b [0x5b, 0x31, 0x7e]
        (execByte none 8 65 [] (initState (fun _ => 0))).1).1.len = 1 ∧
    (execByte none 8 0x1b [0x5b, 0x31, 0x7e]
        (execByte none 8 65 [] (initState (fun _ => 0))).1).1.off ≠
      (execByte none 8 0x1b [0x5b, 0x31, 0x7e]
        (execByte none 8 65 [] (initState (fun _ => 0))).1).1.len := by
  refine ⟨rfl, rfl, ?_⟩
  decide

/-- C2: the claim says `0 ≤ cursorOffset ≤ length` holds after any finite
sequence of editing events from the empty initial state, home included.
Running the byte sequence `A`, 0x1B 0x5B 0x31 0x7E (home) through the read
loop leaves `off = -1` with `len = 1`, violating the invariant's lower
bound.  This theorem evaluates the code at that failing input. -/
theorem c2_invariant_broken_by_home :
    (cliLoop none 8 5 [65, 0x1b, 0x5b, 0x31, 0x7e] (initState (fun _ => 0)) []).state.off
        = -1 ∧
    (cliLoop none 8 5 [65, 0x1b, 0x5b, 0x31, 0x7e] (initState (fun _ => 0)) []).state.len
        = 1 ∧
    ¬(0 ≤ (cliLoop none 8 5 [65, 0x1b, 0x5b, 0x31, 0x7e]
            (initState (fun _ => 0)) []).state.off ∧
      (cliLoop none 8 5 [65, 0x1b, 0x5b, 0x31, 0x7e]
            (initState (fun _ => 0)) []).state.off ≤
        (cliLoop none 8 5 [65, 0x1b, 0x5b, 0x31, 0x7e]
            (initState (fun _ => 0)) []).state.len) := by
  refine ⟨rfl, rfl, ?_⟩
  decide

/-- C5: inserting a literal byte `b` in a state with `0 ≤ off ≤ len`
shifts the `off` characters at/after the insertion point one slot right,
writes `b` at position `len - off`, writes the terminator at the new end,
increments `len`, keeps `off`, and resets `pad` to 0; and the scenario
`A`, `B`, `C`, left, left, `X`, CR returns the line `AXBC`. -/
theorem c5_insert_shifts_right :
    (∀ (s : CliState) (b : Nat), 0 ≤ s.off → s.off ≤ s.len →
      (insertChar b s).len = s.len + 1 ∧
      (insertChar b s).off = s.off ∧
      (insertChar b s).pad = 0 ∧
      ∀ j : Int, (insertChar b s).buf j =
        if j = s.len + 1 then 0
        else if j = s.len - s.off then b
        else if s.len - s.off < j ∧ j ≤ s.len then s.buf (j - 1)
        else s.buf j) ∧
    ((cliGets none 16 [65, 66, 67, 0x1b, 0x5b, 68, 0x1b, 0x5b, 68, 88, 0xd]
        (fun _ => 0)).1.lineLen = 4 ∧
      readCStr ((cliGets none 16 [65, 66, 67, 0x1b, 0x5b, 68, 0x1b, 0x5b, 68, 88, 0xd]
        (fun _ => 0)).1.lineBuf) 8 0 = [65, 88, 66, 67]) := by
  constructor
  · intro s b h0 h1
    refine ⟨rfl, rfl, rfl, ?_⟩
    intro j
    show update (update (if s.off ≠ 0 then shiftRightN s.buf s.len s.off.toNat else s.buf)
        (s.len - s.off) b) (s.len + 1) 0 j = _
    by_cases hj1 : j = s.len + 1
    · rw [hj1, update_at, if_pos rfl]
    · rw [update_ne _ _ _ _ hj1, if_neg hj1]
      by_cases hj2 : j = s.len - s.off
      · rw [hj2, update_at, if_pos rfl]
      · rw [update_ne _ _ _ _ hj2, if_neg hj2]
        by_cases hoff : s.off = 0
        · rw [if_neg (by simp [hoff]), if_neg (by omega)]
        · rw [if_pos hoff, shiftRightN_apply, Int.toNat_of_nonneg h0]
  · exact ⟨rfl, rfl⟩

/-- Witness for C5 at the state with buffer contents 9 everywhere,
`len = 2`, `off = 1`, `pad = 5`, inserting byte 7. -/
theorem c5_insert_shifts_right_witness :
    (insertChar 7 ⟨fun _ => 9, 2, 1, 5⟩).len = 3 ∧
    (insertChar 7 ⟨fun _ => 9, 2, 1, 5⟩).off = 1 ∧
    (insertChar 7 ⟨fun _ => 9, 2, 1, 5⟩).pad = 0 ∧
    (insertChar 7 ⟨fun _ => 9, 2, 1, 5⟩).buf 1 = 7 ∧
    (insertChar 7 ⟨fun _ => 9, 2, 1, 5⟩).buf 2 = 9 ∧
    (insertChar 7 ⟨fun _ => 9, 2, 1, 5⟩).buf 3 = 0 := by
  have h := c5_insert_shifts_right.1 ⟨fun _ => 9, 2, 1, 5⟩ 7 (by decide) (by decide)
  refine ⟨h.1, h.2.1, h.2.2.1, ?_, ?_, ?_⟩
  · have h4 := h.2.2.2 1
    norm_num at h4
    exact h4
  · have h4 := h.2.2.2 2
    norm_num at h4
    exact h4
  · have h4 := h.2.2.2 3
    norm_num at h4
    exact h4

/-- C6: the delete-forward event (0x1B 0x5B 0x33 0x7E), in a state with
`0 ≤ off ≤ len`, is a no-op when `off = 0`; otherwise it shifts the tail
left by one starting at position `len - off`, blanks the vacated last
slot, decrements `len`, increments `pad` and decrements `off`.  The
trailing 0x7E byte is consumed. -/
theorem c6_delete_forward (hcb : Option HistCb) (blen : Nat) (s : CliState)
    (rest : List Nat) (_h0 : 0 ≤ s.off) (_h1 : s.off ≤ s.len) :
    ((execByte hcb blen 0x1b (0x5b :: 0x33 :: 0x7e :: rest) s).2 = rest) ∧
    (s.off = 0 → (execByte hcb blen 0x1b (0x5b :: 0x33 :: 0x7e :: rest) s).1 = s) ∧
    (0 < s.off →
      (execByte hcb blen 0x1b (0x5b :: 0x33 :: 0x7e :: rest) s).1.len = s.len - 1 ∧
      (execByte hcb blen 0x1b (0x5b :: 0x33 :: 0x7e :: rest) s).1.off = s.off - 1 ∧
      (execByte hcb blen 0x1b (0x5b :: 0x33 :: 0x7e :: rest) s).1.pad = s.pad + 1 ∧
      ∀ j : Int, (execByte hcb blen 0x1b (0x5b :: 0x33 :: 0x7e :: rest) s).1.buf j =
        if j = s.len - 1 then 32
        else if s.len - s.off ≤ j ∧ j < s.len - 1 then s.buf (j + 1)
        else s.buf j) := by
  refine ⟨rfl, ?_, ?_⟩
  · intro hz
    show deleteForward s = s
    rw [deleteForward, if_neg (by omega)]
  · intro hpos
    have hd : (execByte hcb blen 0x1b (0x5b :: 0x33 :: 0x7e :: rest) s).1
        = deleteForward s := rfl
    rw [hd, deleteForward, if_pos hpos]
    refine ⟨rfl, rfl, rfl, ?_⟩
    intro j
    show update (shiftLeftN s.buf (s.len - s.off) (s.off - 1).toNat) (s.len - 1) 32 j = _
    by_cases hj1 : j = s.len - 1
    · rw [hj1, update_at, if_pos rfl]
    · rw [update_ne _ _ _ _ hj1, if_neg hj1, shiftLeftN_apply,
        Int.toNat_of_nonneg (by omega : (0 : Int) ≤ s.off - 1),
        show s.len - s.off + (s.off - 1) = s.len - 1 from by ring]

/-- Witness for C6: deleting forward in the buffer `A`, `B`, `C` with
`len = 3`, `off = 2` (cursor before `B`) removes `B`. -/
theorem c6_delete_forward_witness :
    ((execByte none 8 0x1b [0x5b, 0x33, 0x7e]
        ⟨fun j => if j = 0 then 65 else if j = 1 then 66 else if j = 2 then 67 else 0,
          3, 2, 0⟩).2 = ([] : List Nat)) ∧
    ((execByte none 8 0x1b [0x5b, 0x33, 0x7e]
        ⟨fun j => if j = 0 then 65 else if j = 1 then 66 else if j = 2 then 67 else 0,
          3, 2, 0⟩).1.len = 2) ∧
    ((execByte none 8 0x1b [0x5b, 0x33, 0x7e]
        ⟨fun j => if j = 0 then 65 else if j = 1 then 66 else if j = 2 then 67 else 0,
          3, 2, 0⟩).1.off = 1) ∧
    ((execByte none 8 0x1b [0x5b, 0x33, 0x7e]
        ⟨fun j => if j = 0 then 65 else if j = 1 then 66 else if j = 2 then 67 else 0,
          3, 2, 0⟩).1.pad = 1) ∧
    ((execByte none 8 0x1b [0x5b, 0x33, 0x7e]
        ⟨fun j => if j = 0 then 65 else if j = 1 then 66 else if j = 2 then 67 else 0,
          3, 2, 0⟩).1.buf 1 = 67) ∧
    ((execByte none 8 0x1b [0x5b, 0x33, 0x7e]
        ⟨fun j => if j = 0 then 65 else if j = 1 then 66 else if j = 2 then 67 else 0,
          3, 2, 0⟩).1.buf 2 = 32) := by
  have h := c6_delete_forward none 8
    ⟨fun j => if j = 0 then 65 else if j = 1 then 66 else if j = 2 then 67 else 0, 3, 2, 0⟩
    [] (by decide) (by decide)
  have hp := h.2.2 (by decide)
  refine ⟨h.1, hp.1, hp.2.1, hp.2.2.1, ?_, ?_⟩
  · have h4 := hp.2.2.2 1
    norm_num at h4
    exact h4
  · have h4 := hp.2.2.2 2
    norm_num at h4
    exact h4

/-- C7: the erase-backward event (byte 0x7F), in a state with
`0 ≤ off ≤ len`, is a no-op when `len - off = 0`; otherwise it shifts the
characters between cursor and end left by one (starting at
`len - off - 1`), blanks the vacated last slot, decrements `len`,
increments `pad` and leaves `off` unchanged; and the scenario `A`, `B`,
`C`, erase, erase, CR returns the line `A`. -/
theorem c7_erase_backward :
    (∀ (hcb : Option HistCb) (blen : Nat) (s : CliState) (rest : List Nat),
      0 ≤ s.off → s.off ≤ s.len →
      ((execByte hcb blen 0x7f rest s).2 = rest) ∧
      (s.len - s.off = 0 → (execByte hcb blen 0x7f rest s).1 = s) ∧
      (0 < s.len - s.off →
        (execByte hcb blen 0x7f rest s).1.len = s.len - 1 ∧
        (execByte hcb blen 0x7f rest s).1.off = s.off ∧
        (execByte hcb blen 0x7f rest s).1.pad = s.pad + 1 ∧
        ∀ j : Int, (execByte hcb blen 0x7f rest s).1.buf j =
          if j = s.len - 1 then 32
          else if s.len - s.off - 1 ≤ j ∧ j < s.len - 1 then s.buf (j + 1)
          else s.buf j)) ∧
    ((cliGets none 16 [65, 66, 67, 0x7f, 0x7f, 0xd] (fun _ => 0)).1.lineLen = 1 ∧
      readCStr ((cliGets none 16 [65, 66, 67, 0x7f, 0x7f, 0xd]
        (fun _ => 0)).1.lineBuf) 8 0 = [65]) := by
  constructor
  · intro hcb blen s rest h0 h1
    refine ⟨rfl, ?_, ?_⟩
    · intro hz
      show eraseBackward s = s
      rw [eraseBackward, if_neg (by omega)]
    · intro hpos
      have hd : (execByte hcb blen 0x7f rest s).1 = eraseBackward s := rfl
      rw [hd, eraseBackward, if_pos hpos]
      refine ⟨rfl, rfl, rfl, ?_⟩
      intro j
      show update (shiftLeftN s.buf (s.len - s.off - 1) s.off.toNat) (s.len - 1) 32 j = _
      by_cases hj1 : j = s.len - 1
      · rw [hj1, update_at, if_pos rfl]
      · rw [update_ne _ _ _ _ hj1, if_neg hj1, shiftLeftN_apply,
          Int.toNat_of_nonneg h0,
          show s.len - s.off - 1 + s.off = s.len - 1 from by ring]
  · exact ⟨rfl, rfl⟩

/-- Witness for C7: erasing backward in the buffer `A`, `B`, `C` with
`len = 3`, `off = 1` (cursor before `C`) removes `B`. -/
theorem c7_erase_backward_witness :
    ((execByte none 8 0x7f []
        ⟨fun j => if j = 0 then 65 else if j = 1 then 66 else if j = 2 then 67 else 0,
          3, 1, 0⟩).2 = ([] : List Nat)) ∧
    ((execByte none 8 0x7f []
        ⟨fun j => if j = 0 then 65 else if j = 1 then 66 else if j = 2 then 67 else 0,
          3, 1, 0⟩).1.len = 2) ∧
    ((execByte none 8 0x7f []
        ⟨fun j => if j = 0 then 65 else if j = 1 then 66 else if j = 2 then 67 else 0,
          3, 1, 0⟩).1.off = 1) ∧
    ((execByte none 8 0x7f []
        ⟨fun j => if j = 0 then 65 else if j = 1 then 66 else if j = 2 then 67 else 0,
          3, 1, 0⟩).1.pad = 1) ∧
    ((execByte none 8 0x7f []
        ⟨fun j => if j = 0 then 65 else if j = 1 then 66 else if j = 2 then 67 else 0,
          3, 1, 0⟩).1.buf 1 = 67) ∧
    ((execByte none 8 0x7f []
        ⟨fun j => if j = 0 then 65 else if j = 1 then 66 else if j = 2 then 67 else 0,
          3, 1, 0⟩).1.buf 2 = 32) := by
  have h := c7_erase_backward.1 none 8
    ⟨fun j => if j = 0 then 65 else if j = 1 then 66 else if j = 2 then 67 else 0, 3, 1, 0⟩
    [] (by decide) (by decide)
  have hp := h.2.2 (by decide)
  refine ⟨h.1, hp.1, hp.2.1, hp.2.2.1, ?_, ?_⟩
  · have h4 := hp.2.2.2 1
    norm_num at h4
    exact h4
  · have h4 := hp.2.2.2 2
    norm_num at h4
    exact h4

/-- C3: the claim says `0 ≤ length ≤ blen - 2` after every event and that a
literal byte arriving when the buffer is full is not inserted.  With
`blen = 3` and input `A`, `B`, `C`, CR (initial buffer contents all 55),
the code inserts every byte unconditionally: the returned length is
`3 > blen - 2 = 1`, the byte `C` is stored at index 2, and the terminator
is written at index `3 = blen`, one slot past the end of the buffer
(visible here because the initial contents 55 at index 3 were
overwritten).  This theorem evaluates the code at that failing input. -/
theorem c3_full_buffer_still_inserts :
    ((cliGets none 3 [65, 66, 67, 0xd] (fun _ => 55)).1.isLine = true) ∧
    ((cliGets none 3 [65, 66, 67, 0xd] (fun _ => 55)).1.lineLen = 3) ∧
    ¬((cliGets none 3 [65, 66, 67, 0xd] (fun _ => 55)).1.lineLen ≤ 3 - 2) ∧
    ((cliGets none 3 [65, 66, 67, 0xd] (fun _ => 55)).1.lineBuf 1 = 66) ∧
    ((cliGets none 3 [65, 66, 67, 0xd] (fun _ => 55)).1.lineBuf 2 = 67) ∧
    ((cliGets none 3 [65, 66, 67, 0xd] (fun _ => 55)).1.lineBuf 3 = 0) := by
  refine ⟨rfl, rfl, by decide, rfl, rfl, rfl⟩

end CliGets
